import Mathlib

/-!
Shallow embedding of `modules/remote_bitrate_estimator/remote_estimator_proxy.cc`
(class `webrtc::RemoteEstimatorProxy`).

The C++ ordered map `std::map<int64_t, int64_t> packet_arrival_times_` is embedded
as an association list whose keys are strictly increasing (`MapSorted`); a map
iterator becomes the suffix of the list that starts at the iterator's position,
so `lower_bound` is `dropWhile`, `erase(begin(), it)` replaces the list by the
suffix at `it`, and dereferencing an iterator reads the head of its suffix.
Machine integers are embedded as `Int`/`Nat`; the only places where wrap-around
is observable in the embedded code are the 16-bit/8-bit truncations in
`BuildFeedbackPacket` (`% 65536`, `% 256`) and the unsigned-32-bit arithmetic of
`GetTtimeFromAbsSendtime` (`% 4294967296`), which are made explicit below.
-/

/-- Embeds `RemoteEstimatorProxy::kMaxNumberOfPackets = 1 << 15` (line 32). -/
def kMaxNumberOfPackets : Int := 32768

/-- Embeds `kMaxTimeMs = std::numeric_limits<int64_t>::max() / 1000` (lines 36-37). -/
def kMaxTimeMs : Int := 9223372036854775807 / 1000

/-- The `packet_arrival_times_` map, as an association list ordered by key. -/
abbrev ArrivalMap := List (Int × Int)

/-- Strict key-sortedness, the representation invariant `std::map` guarantees. -/
def MapSorted (m : ArrivalMap) : Prop :=
  List.Pairwise (fun a b => a.1 < b.1) m

instance (m : ArrivalMap) : Decidable (MapSorted m) :=
  inferInstanceAs (Decidable (List.Pairwise _ m))

/-- Embeds `packet_arrival_times_.lower_bound(k)`: the suffix of entries with key ≥ k
(for a sorted map, `dropWhile (key < k)`). -/
def lowerBound (m : ArrivalMap) (k : Int) : ArrivalMap :=
  m.dropWhile (fun p => decide (p.1 < k))

/-- Embeds `packet_arrival_times_.find(k) != packet_arrival_times_.end()`. -/
def mapContains (m : ArrivalMap) (k : Int) : Bool :=
  m.any (fun p => decide (p.1 = k))

/-- Value stored under key `k`, when present. -/
def mapLookup (m : ArrivalMap) (k : Int) : Option Int :=
  (m.find? (fun p => decide (p.1 = k))).map Prod.snd

/-- Embeds `packet_arrival_times_[k] = v`: ordered insertion, overwriting on an
equal key (the proxy only calls it after a failed `find`, so the overwrite arm
is never exercised there). -/
def mapInsert (k v : Int) : ArrivalMap → ArrivalMap
  | [] => [(k, v)]
  | p :: rest =>
    if k < p.1 then (k, v) :: p :: rest
    else if k = p.1 then (k, v) :: rest
    else p :: mapInsert k v rest

/-- Embeds `webrtc::FeedbackRequest` (the two fields the proxy reads). -/
structure FeedbackRequest where
  include_timestamps : Bool
  sequence_count : Nat
deriving Repr, DecidableEq

/-- Embeds the fields of `rtcp::TransportFeedback` that `BuildFeedbackPacket`
writes (lines 321-331): media SSRC, 16-bit-truncated base sequence number, base
time in microseconds, 8-bit feedback counter, and the appended receive records
as (16-bit-truncated sequence, microsecond time) pairs. `base_time_us` is
`none` exactly when `begin_iterator` is the map's `end()`, in which case the
C++ dereference `begin_iterator->second` has no defined value to read. -/
structure FeedbackPacket where
  media_ssrc : Nat
  base_sequence_number : Nat
  base_time_us : Option Int
  fb_sequence_number : Nat
  received : List (Nat × Int)
  include_timestamps : Bool
deriving Repr, DecidableEq

/-- Embeds `RemoteEstimatorProxy::BuildFeedbackPacket` (lines 310-343).
`begin_tail` is the suffix of the map at `begin_iterator`; `n` is the distance
from `begin_iterator` to `end_iterator`, so the iterated range is
`begin_tail.take n`. Modelled from the spec: `rtcp::TransportFeedback` itself
(its source is outside the provided file) has a fixed capacity, and
`AddReceivedPacket` fails exactly when `cap` records have already been
appended, so the loop appends `(entries.take cap)` and stops at the first
failure. Returns the packet, the list of appended window entries (at full
64-bit resolution), and `next_sequence_number` — one past the last appended
entry's key, or `base_sequence_number` if nothing was appended. -/
def buildFeedbackPacket (cap : Nat) (feedback_packet_count : Nat) (media_ssrc : Nat)
    (base_sequence_number : Int) (begin_tail : ArrivalMap) (n : Nat)
    (inc_timestamps : Bool) : FeedbackPacket × ArrivalMap × Int :=
  let entries := begin_tail.take n
  let appended := entries.take cap
  let next_sequence_number :=
    match appended.getLast? with
    | some p => p.1 + 1
    | none => base_sequence_number
  ({ media_ssrc := media_ssrc
     base_sequence_number := (base_sequence_number % 65536).toNat
     base_time_us := begin_tail.head?.map (fun p => p.2 * 1000)
     fb_sequence_number := feedback_packet_count % 256
     received := appended.map (fun p => ((p.1 % 65536).toNat, p.2 * 1000))
     include_timestamps := inc_timestamps },
   appended, next_sequence_number)

/-- Mutable state of one `RemoteEstimatorProxy` instance (the fields of the C++
class that the embedded member functions read or write). -/
structure ProxyState where
  packet_arrival_times : ArrivalMap
  periodic_window_start_seq : Option Int
  send_periodic_feedback : Bool
  feedback_packet_count : Nat
  media_ssrc : Nat
  send_interval_ms : Int
  last_process_time_ms : Int
  unwrap_last : Option Int
  cycles : Int
  max_abs_send_time : Nat
  last_bwe_sendback_ms : Int
  last_redis_save_ms : Int
deriving Repr, DecidableEq

/-- Configuration snapshot read by the embedded functions: `send_config_`
(back window, min/max intervals, bandwidth fraction) and the AlphaCC polling
intervals. -/
structure ProxyConfig where
  back_window_ms : Int
  min_interval_ms : Int
  max_interval_ms : Int
  bandwidth_fraction : ℚ
  bwe_sendback_interval_ms : Int
  redis_save_interval_ms : Int

/-- Modelled from the spec: `SeqNumUnwrapper::Unwrap` (declared in
`modules/include/module_common_types_public.h`, outside the provided source):
returns the 64-bit value congruent to `raw` mod 65536 that is nearest to the
previously returned value; the first call returns `raw` itself. -/
def seqUnwrap (last : Option Int) (raw : Nat) : Int :=
  match last with
  | none => (raw : Int)
  | some l =>
    let d := ((raw : Int) - l) % 65536
    if d < 32768 then l + d else l + d - 65536

/-- Embeds `RemoteEstimatorProxy::SendFeedbackOnRequest` (lines 275-298).
The erased range `[begin(), begin_iterator)` leaves exactly the suffix
`lowerBound map first_sequence_number`. -/
def sendFeedbackOnRequest (cap : Nat) (st : ProxyState) (sequence_number : Int)
    (feedback_request : FeedbackRequest) :
    ProxyState × List (FeedbackPacket × ArrivalMap) :=
  if feedback_request.sequence_count = 0 then (st, [])
  else
    let first_sequence_number : Int :=
      sequence_number - (feedback_request.sequence_count : Int) + 1
    let begin_tail := lowerBound st.packet_arrival_times first_sequence_number
    let n := (begin_tail.takeWhile (fun p => decide (p.1 ≤ sequence_number))).length
    let r := buildFeedbackPacket cap st.feedback_packet_count st.media_ssrc
               first_sequence_number begin_tail n feedback_request.include_timestamps
    ({ st with
        packet_arrival_times := lowerBound st.packet_arrival_times first_sequence_number,
        feedback_packet_count := (st.feedback_packet_count + 1) % 256 },
     [(r.1, r.2.1)])

/-- Embeds the periodic-mode cull of `OnPacketArrival` (lines 199-209): when
periodic feedback is enabled, a cursor exists, and the window has fully drained
(`lower_bound(cursor) == end()`), erase leading entries that are older than
`seq` and aged beyond the back-window retention. -/
def culledArrivals (cfg : ProxyConfig) (st : ProxyState) (seq arrival_time : Int) :
    ArrivalMap :=
  if st.send_periodic_feedback then
    match st.periodic_window_start_seq with
    | some c =>
      if (lowerBound st.packet_arrival_times c).isEmpty then
        st.packet_arrival_times.dropWhile
          (fun p => decide (p.1 < seq) && decide (cfg.back_window_ms ≤ arrival_time - p.2))
      else st.packet_arrival_times
    | none => st.packet_arrival_times
  else st.packet_arrival_times

/-- Embeds the cursor lowering of `OnPacketArrival` (lines 210-212): when
periodic feedback is enabled, the cursor becomes `seq` if unset or above `seq`. -/
def loweredCursor (st : ProxyState) (seq : Int) : Option Int :=
  if st.send_periodic_feedback then
    match st.periodic_window_start_seq with
    | none => some seq
    | some c => if seq < c then some seq else some c
  else st.periodic_window_start_seq

/-- Embeds the body of `RemoteEstimatorProxy::OnPacketArrival` after the
sequence number has been unwrapped (lines 199-238): the periodic-mode cull of
aged-out entries, the lowering of `periodic_window_start_seq_`, the duplicate
check, the insertion, the span prune to `kMaxNumberOfPackets`, the cursor
re-sync after a prune, and the immediate on-demand feedback. -/
def onPacketArrivalSeq (cfg : ProxyConfig) (cap : Nat) (st : ProxyState)
    (seq : Int) (arrival_time : Int) (feedback_request : Option FeedbackRequest) :
    ProxyState × List (FeedbackPacket × ArrivalMap) :=
  let map1 := culledArrivals cfg st seq arrival_time
  let cursor1 := loweredCursor st seq
  if mapContains map1 seq then
    ({ st with packet_arrival_times := map1, periodic_window_start_seq := cursor1 }, [])
  else
    let map2 := mapInsert seq arrival_time map1
    let max_key := (map2.getLast?.map Prod.fst).getD 0
    let map3 := lowerBound map2 (max_key - kMaxNumberOfPackets)
    let cursor2 :=
      if map3.length ≠ map2.length ∧ st.send_periodic_feedback then
        map3.head?.map Prod.fst
      else cursor1
    let st1 := { st with packet_arrival_times := map3, periodic_window_start_seq := cursor2 }
    match feedback_request with
    | some fr => sendFeedbackOnRequest cap st1 seq fr
    | none => (st1, [])

/-- Embeds `RemoteEstimatorProxy::OnPacketArrival` (lines 188-239): the
arrival-time range guard (lines 192-195) runs before anything is touched, then
the raw sequence number is unwrapped and the body runs. -/
def onPacketArrival (cfg : ProxyConfig) (cap : Nat) (st : ProxyState)
    (sequence_number : Nat) (arrival_time : Int)
    (feedback_request : Option FeedbackRequest) :
    ProxyState × List (FeedbackPacket × ArrivalMap) :=
  if arrival_time < 0 ∨ arrival_time > kMaxTimeMs then (st, [])
  else
    let seq := seqUnwrap st.unwrap_last sequence_number
    onPacketArrivalSeq cfg cap { st with unwrap_last := some seq } seq arrival_time
      feedback_request

/-- Embeds the loop of `RemoteEstimatorProxy::SendPeriodicFeedbacks`
(lines 257-272) as fuel-bounded recursion; `sendPeriodicFeedbacks` supplies
fuel that provably suffices whenever the packet capacity is at least one. -/
def drainLoop (cap : Nat) : Nat → ProxyState → ProxyState × List (FeedbackPacket × ArrivalMap)
  | 0, st => (st, [])
  | fuel + 1, st =>
    match st.periodic_window_start_seq with
    | none => (st, [])
    | some c =>
      let s := lowerBound st.packet_arrival_times c
      if s.isEmpty then (st, [])
      else
        let r := buildFeedbackPacket cap st.feedback_packet_count st.media_ssrc c s s.length true
        let rest := drainLoop cap fuel
          { st with periodic_window_start_seq := some r.2.2,
                    feedback_packet_count := (st.feedback_packet_count + 1) % 256 }
        (rest.1, (r.1, r.2.1) :: rest.2)

/-- Embeds `RemoteEstimatorProxy::SendPeriodicFeedbacks` (lines 250-273). -/
def sendPeriodicFeedbacks (cap : Nat) (st : ProxyState) :
    ProxyState × List (FeedbackPacket × ArrivalMap) :=
  match st.periodic_window_start_seq with
  | none => (st, [])
  | some _ => drainLoop cap (st.packet_arrival_times.length + 1) st

/-- Embeds `RemoteEstimatorProxy::Process` (lines 152-160). -/
def process (cap : Nat) (st : ProxyState) (now : Int) :
    ProxyState × List (FeedbackPacket × ArrivalMap) :=
  if st.send_periodic_feedback = false then (st, [])
  else sendPeriodicFeedbacks cap { st with last_process_time_ms := now }

/-- Embeds `RemoteEstimatorProxy::TimeUntilNextProcess` (lines 139-150). -/
def timeUntilNextProcess (st : ProxyState) (now : Int) : Int :=
  if st.send_periodic_feedback = false then 24 * 60 * 60 * 1000
  else if st.last_process_time_ms ≠ -1 ∧ now - st.last_process_time_ms < st.send_interval_ms then
    st.last_process_time_ms + st.send_interval_ms - now
  else 0

/-- Modelled from the spec: `rtc::SafeClamp` (header outside the provided
source) clamps a value into `[lo, hi]`. -/
def safeClamp (v lo hi : ℚ) : ℚ :=
  if v < lo then lo else if hi < v then hi else v

/-- Embeds `RemoteEstimatorProxy::OnBitrateChanged` (lines 162-180). The C++
code computes in `double` and casts the result to `int` (truncation toward
zero); for every configuration with positive report intervals the operand
`0.5 + 544000 / clamped` is positive, where truncation toward zero and `⌊·⌋`
agree, and the double arithmetic is exact rational arithmetic at these
magnitudes, so the computation is embedded over `ℚ` with `Int.floor`. -/
def onBitrateChanged (cfg : ProxyConfig) (st : ProxyState) (bitrate_bps : Int) : ProxyState :=
  let kTwccReportSize : ℚ := 20 + 8 + 10 + 30
  let kMinTwccRate : ℚ := kTwccReportSize * 8 * 1000 / (cfg.max_interval_ms : ℚ)
  let kMaxTwccRate : ℚ := kTwccReportSize * 8 * 1000 / (cfg.min_interval_ms : ℚ)
  { st with send_interval_ms :=
      ⌊(1 / 2 : ℚ) + kTwccReportSize * 8 * 1000 /
          safeClamp (cfg.bandwidth_fraction * (bitrate_bps : ℚ)) kMinTwccRate kMaxTwccRate⌋ }

/-- Embeds the millisecond result of `GetTtimeFromAbsSendtime` (lines 368-372):
`round((absoluteSendTime / 2^18 + 64 * cycles) * 1000)`. Since
`64 = 2^24 / 2^18` seconds is one wrap period, the rounded value is
`⌊(1000 * (a + 2^24 * c)) / 2^18 + 1/2⌋`, written below with integer division.
The C++ `double` computation is exact and `std::round` (half away from zero)
agrees with `⌊x + 1/2⌋` for the non-negative operands that arise, and the
final `static_cast<uint32_t>` is value-preserving precisely when the result
is below 2^32 (out of that range the C++ conversion has no defined value). -/
def sendTimeMsFormula (absoluteSendTime : Nat) (cycles : Int) : Int :=
  (2 * (1000 * ((absoluteSendTime : Int) + 16777216 * cycles)) + 262144) / 524288

/-- Embeds `RemoteEstimatorProxy::GetTtimeFromAbsSendtime` (lines 345-373) as a
function of the `(cycles_, max_abs_send_time_)` state: the lazy initialization,
the signed-32-bit wrap-safe comparison of the values shifted left by 8 (done in
unsigned 32-bit arithmetic, hence the `% 4294967296`), the cycle increment on a
detected wrap, and the millisecond conversion. Returns the new `cycles_`, the
new `max_abs_send_time_`, and the millisecond result. -/
def getTtimeFromAbsSendtime (cycles : Int) (max_abs_send_time : Nat)
    (absoluteSendTime : Nat) : Int × Nat × Int :=
  let c0 := if cycles = -1 then 0 else cycles
  let m0 := if cycles = -1 then absoluteSendTime else max_abs_send_time
  let diff32 := ((absoluteSendTime * 256) % 4294967296 + 4294967296
      - (m0 * 256) % 4294967296) % 4294967296
  let c1 := if diff32 < 2147483648 then (if absoluteSendTime < m0 then c0 + 1 else c0) else c0
  let m1 := if diff32 < 2147483648 then absoluteSendTime else m0
  (c1, m1, sendTimeMsFormula absoluteSendTime c1)

/-- Embeds `RemoteEstimatorProxy::TimeToSendBweMessage` (lines 241-248). -/
def timeToSendBweMessage (cfg : ProxyConfig) (st : ProxyState) (now : Int) :
    ProxyState × Bool :=
  if st.last_bwe_sendback_ms < now - cfg.bwe_sendback_interval_ms then
    ({ st with last_bwe_sendback_ms := now }, true)
  else (st, false)

/-- Embeds `RemoteEstimatorProxy::TimeToSaveIntoRedis` (lines 400-407). -/
def timeToSaveIntoRedis (cfg : ProxyConfig) (st : ProxyState) (now : Int) :
    ProxyState × Bool :=
  if st.last_redis_save_ms < now - cfg.redis_save_interval_ms then
    ({ st with last_redis_save_ms := now }, true)
  else (st, false)

/-- Embeds the extension fields of `webrtc::RTPHeader` that `IncomingPacket`
reads. -/
structure RTPHeaderExtension where
  hasTransportSequenceNumber : Bool
  transportSequenceNumber : Nat
  feedback_request : Option FeedbackRequest
  absoluteSendTime : Nat
deriving Repr, DecidableEq

/-- Embeds the fields of `webrtc::RTPHeader` that `IncomingPacket` reads. -/
structure RTPHeader where
  ssrc : Nat
  extension : RTPHeaderExtension
deriving Repr, DecidableEq

/-- Embeds the proxy-state effect of `RemoteEstimatorProxy::IncomingPacket`
(lines 81-132): the missing-extension guard, the unconditional `media_ssrc_`
assignment, `OnPacketArrival`, the send-time unwrap feeding the (external)
inference module, and the two polling-timer updates. The external
collaborators themselves (onnxinfer, StatCollect, the BWE application packet)
hold no proxy state and are not modelled. -/
def incomingPacket (cfg : ProxyConfig) (cap : Nat) (st : ProxyState) (now : Int)
    (arrival_time_ms : Int) (header : RTPHeader) :
    ProxyState × List (FeedbackPacket × ArrivalMap) :=
  if header.extension.hasTransportSequenceNumber = false then (st, [])
  else
    let st1 := { st with media_ssrc := header.ssrc }
    let r := onPacketArrival cfg cap st1 header.extension.transportSequenceNumber
               arrival_time_ms header.extension.feedback_request
    let t := getTtimeFromAbsSendtime r.1.cycles r.1.max_abs_send_time
               header.extension.absoluteSendTime
    let st2 := { r.1 with cycles := t.1, max_abs_send_time := t.2.1 }
    let st3 := (timeToSendBweMessage cfg st2 now).1
    let st4 := (timeToSaveIntoRedis cfg st3 now).1
    (st4, r.2)

/-- Greedy partition of a list into consecutive chunks of `cap` elements (the
shape a capacity-`cap` drain cuts a backlog into); used to state what the
periodic drain produces. -/
def chunkList {α : Type} (cap : Nat) : List α → List (List α)
  | [] => []
  | a :: rest => (a :: rest.take (cap - 1)) :: chunkList cap (rest.drop (cap - 1))
termination_by l => l.length
decreasing_by
  simp only [List.length_cons, List.length_drop]
  omega

/-! ### Helper lemmas about the ordered-map embedding -/

theorem mem_of_mem_dropWhile {α : Type} {p : α → Bool} {l : List α} {a : α}
    (h : a ∈ l.dropWhile p) : a ∈ l :=
  (List.dropWhile_sublist _).mem h

theorem mem_of_mem_takeWhile {α : Type} {p : α → Bool} {l : List α} {a : α}
    (h : a ∈ l.takeWhile p) : a ∈ l :=
  (List.takeWhile_sublist _).mem h

theorem mem_dropWhile_of_mem {α : Type} {p : α → Bool} {l : List α} {a : α}
    (h : a ∈ l) (hp : p a = false) : a ∈ l.dropWhile p := by
  induction l with
  | nil => cases h
  | cons x t ih =>
    rw [List.dropWhile_cons]
    by_cases hx : p x = true
    · rw [if_pos hx]
      rcases List.mem_cons.mp h with rfl | ht
      · rw [hx] at hp; cases hp
      · exact ih ht
    · rw [if_neg hx]
      exact h

theorem sorted_tail {a : Int × Int} {m : ArrivalMap} (h : MapSorted (a :: m)) : MapSorted m :=
  (List.pairwise_cons.mp h).2

theorem sorted_head_lt {a : Int × Int} {m : ArrivalMap} (h : MapSorted (a :: m)) :
    ∀ p ∈ m, a.1 < p.1 :=
  (List.pairwise_cons.mp h).1

theorem lowerBound_key_ge {m : ArrivalMap} (hs : MapSorted m) {k : Int} :
    ∀ p ∈ lowerBound m k, k ≤ p.1 := by
  induction m with
  | nil => intro p hp; cases hp
  | cons a t ih =>
    intro p hp
    rw [lowerBound, List.dropWhile_cons] at hp
    by_cases ha : a.1 < k
    · rw [if_pos (by simpa using ha)] at hp
      exact ih (sorted_tail hs) p hp
    · rw [if_neg (by simpa using ha)] at hp
      rcases List.mem_cons.mp hp with rfl | ht
      · omega
      · have := sorted_head_lt hs p ht
        omega

theorem sorted_key_le_getLast {m : ArrivalMap} (hs : MapSorted m) {p q : Int × Int}
    (hp : p ∈ m) (hq : m.getLast? = some q) : p.1 ≤ q.1 := by
  induction m with
  | nil => cases hp
  | cons a t ih =>
    cases t with
    | nil =>
      simp only [List.mem_singleton] at hp
      simp only [List.getLast?_singleton, Option.some.injEq] at hq
      rw [hp, ← hq]
    | cons b t2 =>
      rw [List.getLast?_cons_cons] at hq
      rcases List.mem_cons.mp hp with rfl | hpt
      · exact le_of_lt (sorted_head_lt hs q (List.mem_of_mem_getLast? hq))
      · exact ih (sorted_tail hs) hpt hq

theorem mem_mapInsert {k v : Int} {m : ArrivalMap} :
    ∀ {p : Int × Int}, p ∈ mapInsert k v m → p = (k, v) ∨ p ∈ m := by
  induction m with
  | nil =>
    intro p hp
    rw [mapInsert, List.mem_singleton] at hp
    exact Or.inl hp
  | cons a t ih =>
    intro p hp
    rw [mapInsert] at hp
    by_cases h1 : k < a.1
    · rw [if_pos h1] at hp
      rcases List.mem_cons.mp hp with rfl | h
      · exact Or.inl rfl
      · exact Or.inr h
    · rw [if_neg h1] at hp
      by_cases h2 : k = a.1
      · rw [if_pos h2] at hp
        rcases List.mem_cons.mp hp with rfl | h
        · exact Or.inl rfl
        · exact Or.inr (List.mem_cons_of_mem a h)
      · rw [if_neg h2] at hp
        rcases List.mem_cons.mp hp with rfl | h
        · exact Or.inr (List.mem_cons_self _ _)
        · rcases ih h with h' | h'
          · exact Or.inl h'
          · exact Or.inr (List.mem_cons_of_mem a h')

theorem mapInsert_ne_nil {k v : Int} {m : ArrivalMap} : mapInsert k v m ≠ [] := by
  cases m with
  | nil => simp [mapInsert]
  | cons a t =>
    rw [mapInsert]
    split_ifs <;> simp

theorem mapInsert_sorted {k v : Int} {m : ArrivalMap} (hs : MapSorted m) :
    MapSorted (mapInsert k v m) := by
  induction m with
  | nil =>
    rw [mapInsert]
    exact List.pairwise_singleton _ _
  | cons a t ih =>
    rw [mapInsert]
    by_cases h1 : k < a.1
    · rw [if_pos h1]
      refine List.pairwise_cons.mpr ⟨?_, hs⟩
      intro b hb
      rcases List.mem_cons.mp hb with rfl | hbt
      · exact h1
      · exact lt_trans h1 (sorted_head_lt hs b hbt)
    · rw [if_neg h1]
      by_cases h2 : k = a.1
      · rw [if_pos h2]
        refine List.pairwise_cons.mpr ⟨?_, sorted_tail hs⟩
        intro b hb
        rw [h2]
        exact sorted_head_lt hs b hb
      · rw [if_neg h2]
        refine List.pairwise_cons.mpr ⟨?_, ih (sorted_tail hs)⟩
        intro b hb
        rcases mem_mapInsert hb with rfl | hbt
        · show a.1 < k
          omega
        · exact sorted_head_lt hs b hbt

theorem mapContains_iff {m : ArrivalMap} {k : Int} :
    mapContains m k = true ↔ ∃ p ∈ m, p.1 = k := by
  simp [mapContains, List.any_eq_true]

theorem mapContains_eq_false {m : ArrivalMap} {k : Int} :
    mapContains m k = false ↔ ∀ p ∈ m, p.1 ≠ k := by
  simp [mapContains, List.any_eq_false]

theorem mapLookup_dropWhile {m : ArrivalMap} {k : Int} {p : Int × Int → Bool}
    (hpred : ∀ q, p q = true → q.1 ≠ k) :
    mapLookup (m.dropWhile p) k = mapLookup m k := by
  induction m with
  | nil => rfl
  | cons a t ih =>
    rw [List.dropWhile_cons]
    by_cases ha : p a = true
    · rw [if_pos ha, ih]
      have hne := hpred a ha
      simp [mapLookup, List.find?_cons, decide_eq_false hne]
    · rw [if_neg ha]

theorem dropWhile_append_all {α : Type} (p : α → Bool) (l1 l2 : List α)
    (h : ∀ a ∈ l1, p a = true) : (l1 ++ l2).dropWhile p = l2.dropWhile p := by
  induction l1 with
  | nil => rfl
  | cons a t ih =>
    rw [List.cons_append, List.dropWhile_cons, if_pos (h a (List.mem_cons_self a t))]
    exact ih (fun b hb => h b (List.mem_cons_of_mem a hb))

theorem dropWhile_eq_self_of_head {α : Type} (p : α → Bool) (l : List α)
    (h : ∀ a ∈ l.head?, p a = false) : l.dropWhile p = l := by
  cases l with
  | nil => rfl
  | cons a t => rw [List.dropWhile_cons, if_neg (by simp [h a rfl])]

theorem take_length_takeWhile {α : Type} (p : α → Bool) (l : List α) :
    l.take (l.takeWhile p).length = l.takeWhile p := by
  induction l with
  | nil => rfl
  | cons a t ih =>
    rw [List.takeWhile_cons]
    by_cases h : p a = true
    · rw [if_pos h]
      simp [List.take_succ_cons, ih]
    · rw [if_neg h]
      rfl

theorem lowerBound_split {m : ArrivalMap} (hs : MapSorted m) {c : Int}
    {chunk restc : ArrivalMap} (hsplit : lowerBound m c = chunk ++ restc)
    {last : Int × Int} (hlast : chunk.getLast? = some last) :
    lowerBound m (last.1 + 1) = restc := by
  have hm : m.takeWhile (fun p => decide (p.1 < c)) ++ (chunk ++ restc) = m := by
    rw [← hsplit]; exact List.takeWhile_append_dropWhile _ _
  set front := m.takeWhile (fun p => decide (p.1 < c)) with hfront_def
  have hlastmem : last ∈ chunk := List.mem_of_mem_getLast? hlast
  have hpair : List.Pairwise (fun a b : Int × Int => a.1 < b.1) (front ++ (chunk ++ restc)) := by
    rw [hm]; exact hs
  have h1 := List.pairwise_append.mp hpair
  have h2 := List.pairwise_append.mp h1.2.1
  -- every element of front and of chunk has key ≤ last.1
  have hfc : ∀ a ∈ front ++ chunk, decide (a.1 < last.1 + 1) = true := by
    intro a ha
    rcases List.mem_append.mp ha with haf | hac
    · have := h1.2.2 a haf last (List.mem_append.mpr (Or.inl hlastmem))
      simp; omega
    · have := sorted_key_le_getLast h2.1 hac hlast
      simp; omega
  -- every element of restc has key > last.1
  have hrest : ∀ a ∈ restc.head?, decide (a.1 < last.1 + 1) = false := by
    intro a ha
    have hmem : a ∈ restc := by
      cases restc with
      | nil => cases ha
      | cons b t =>
        cases ha
        exact List.mem_cons_self _ _
    have := h2.2.2 last hlastmem a hmem
    simp; omega
  have : lowerBound m (last.1 + 1) =
      ((front ++ chunk) ++ restc).dropWhile (fun p => decide (p.1 < last.1 + 1)) := by
    rw [lowerBound]
    congr 1
    rw [List.append_assoc, hm]
  rw [this, dropWhile_append_all _ _ _ hfc, dropWhile_eq_self_of_head _ _ hrest]

theorem chunkList_join_of_le {α : Type} (cap : Nat) :
    ∀ (n : Nat) (l : List α), l.length ≤ n → (chunkList cap l).flatten = l := by
  intro n
  induction n with
  | zero =>
    intro l hl
    rw [List.length_eq_zero.mp (Nat.le_zero.mp hl), chunkList]
    rfl
  | succ n ih =>
    intro l hl
    cases l with
    | nil => rw [chunkList]; rfl
    | cons a rest =>
      rw [chunkList, List.flatten_cons,
        ih (rest.drop (cap - 1)) (by simp only [List.length_drop]; simp at hl; omega)]
      rw [List.cons_append, List.take_append_drop]

theorem chunkList_join {α : Type} (cap : Nat) (l : List α) : (chunkList cap l).flatten = l :=
  chunkList_join_of_le cap l.length l le_rfl

theorem chunkList_ne_nil_of_le {α : Type} (cap : Nat) :
    ∀ (n : Nat) (l : List α), l.length ≤ n → ∀ ch ∈ chunkList cap l, ch ≠ [] := by
  intro n
  induction n with
  | zero =>
    intro l hl ch hch
    rw [List.length_eq_zero.mp (Nat.le_zero.mp hl), chunkList] at hch
    cases hch
  | succ n ih =>
    intro l hl ch hch
    cases l with
    | nil => rw [chunkList] at hch; cases hch
    | cons a rest =>
      rw [chunkList] at hch
      rcases List.mem_cons.mp hch with rfl | h
      · simp
      · exact ih (rest.drop (cap - 1)) (by simp only [List.length_drop]; simp at hl; omega) ch h

theorem chunkList_mem_ne_nil {α : Type} (cap : Nat) (l : List α) :
    ∀ ch ∈ chunkList cap l, ch ≠ [] :=
  chunkList_ne_nil_of_le cap l.length l le_rfl

theorem drainLoop_fields (cap : Nat) : ∀ (fuel : Nat) (st : ProxyState),
    (drainLoop cap fuel st).1.packet_arrival_times = st.packet_arrival_times ∧
    (drainLoop cap fuel st).1.send_periodic_feedback = st.send_periodic_feedback ∧
    (drainLoop cap fuel st).1.last_process_time_ms = st.last_process_time_ms := by
  intro fuel
  induction fuel with
  | zero => intro st; exact ⟨rfl, rfl, rfl⟩
  | succ n ih =>
    intro st
    rw [drainLoop]
    cases hcur : st.periodic_window_start_seq with
    | none => exact ⟨rfl, rfl, rfl⟩
    | some c =>
      cases hemp : (lowerBound st.packet_arrival_times c).isEmpty with
      | true =>
        simp only [hemp, if_true]
        refine ⟨?_, ?_, ?_⟩ <;> trivial
      | false =>
        simp only [hemp, Bool.false_eq_true, if_false]
        exact ih _

theorem drainLoop_run (cap : Nat) (hcap : 1 ≤ cap) :
    ∀ (fuel : Nat) (st : ProxyState) (c : Int),
    st.periodic_window_start_seq = some c →
    MapSorted st.packet_arrival_times →
    (lowerBound st.packet_arrival_times c).length < fuel →
    (drainLoop cap fuel st).2.map (fun r => r.2) =
        chunkList cap (lowerBound st.packet_arrival_times c) ∧
    (drainLoop cap fuel st).1.periodic_window_start_seq =
      some (match (lowerBound st.packet_arrival_times c).getLast? with
            | some p => p.1 + 1
            | none => c) := by
  intro fuel
  induction fuel with
  | zero => intro st c _ _ hlen; omega
  | succ n ih =>
    intro st c hcur hs hlen
    rw [drainLoop, hcur]
    dsimp only
    cases hsl : lowerBound st.packet_arrival_times c with
    | nil =>
      rw [if_pos (show List.isEmpty ([] : ArrivalMap) = true from rfl)]
      exact ⟨by rw [chunkList]; rfl, hcur⟩
    | cons a t =>
      obtain ⟨k, rfl⟩ : ∃ k, cap = k + 1 := ⟨cap - 1, by omega⟩
      obtain ⟨last, hlast⟩ : ∃ p, (a :: t.take k).getLast? = some p := by
        cases h : (a :: t.take k).getLast? with
        | none => exact absurd (List.getLast?_eq_none_iff.mp h) (by simp)
        | some p => exact ⟨p, rfl⟩
      have happ : (buildFeedbackPacket (k + 1) st.feedback_packet_count st.media_ssrc c
          (a :: t) (a :: t).length true).2.1 = a :: t.take k := by
        simp only [buildFeedbackPacket, List.take_length, List.take_succ_cons]
      have hnext : (buildFeedbackPacket (k + 1) st.feedback_packet_count st.media_ssrc c
          (a :: t) (a :: t).length true).2.2 = last.1 + 1 := by
        simp only [buildFeedbackPacket, List.take_length, List.take_succ_cons, hlast]
      have hsplit : lowerBound st.packet_arrival_times c = (a :: t.take k) ++ t.drop k := by
        rw [hsl, List.cons_append, List.take_append_drop]
      have hlb2 : lowerBound st.packet_arrival_times (last.1 + 1) = t.drop k :=
        lowerBound_split hs hsplit hlast
      have hlen2 : (lowerBound st.packet_arrival_times (last.1 + 1)).length < n := by
        rw [hlb2]
        have h1 : (lowerBound st.packet_arrival_times c).length = t.length + 1 := by
          rw [hsl]; rfl
        have h2 : (t.drop k).length = t.length - k := List.length_drop k t
        omega
      have ihres := ih
        { st with
          periodic_window_start_seq := some (last.1 + 1),
          feedback_packet_count := (st.feedback_packet_count + 1) % 256 }
        (last.1 + 1) rfl hs hlen2
      rw [if_neg (by simp)]
      rw [happ, hnext]
      constructor
      · rw [List.map_cons, ihres.1, hlb2, chunkList]
        simp only [Nat.add_sub_cancel]
      · rw [ihres.2, hlb2]
        cases hdk : t.drop k with
        | nil =>
          have hchunk : (a :: t.take k) = a :: t := by
            have h := hsplit.symm.trans hsl
            rw [hdk, List.append_nil] at h
            exact h
          rw [← hchunk, hlast]
          rfl
        | cons b t2 =>
          obtain ⟨q, hq⟩ : ∃ q, (b :: t2).getLast? = some q := by
            cases h : (b :: t2).getLast? with
            | none => exact absurd (List.getLast?_eq_none_iff.mp h) (by simp)
            | some p => exact ⟨p, rfl⟩
          have heq : a :: t = (a :: t.take k) ++ (b :: t2) := by
            rw [← hdk]
            exact hsl.symm.trans hsplit
          rw [hq, heq, List.getLast?_append_of_ne_nil _ (by simp), hq]

/-- Millisecond outputs of successive `GetTtimeFromAbsSendtime` calls, starting
from send-time-unwrap state `(cycles, max_abs_send_time)`. -/
def ttimeTrace : Int → Nat → List Nat → List Int
  | _, _, [] => []
  | c, m, a :: rest =>
    let r := getTtimeFromAbsSendtime c m a
    r.2.2 :: ttimeTrace r.1 r.2.1 rest

/-- Value of `cycles_` used for each successive output of the send-time
unwrapper. -/
def ttimeCycleTrace : Int → Nat → List Nat → List Int
  | _, _, [] => []
  | c, m, a :: rest =>
    let r := getTtimeFromAbsSendtime c m a
    r.1 :: ttimeCycleTrace r.1 r.2.1 rest

/-- Final value of `cycles_` after feeding a whole stream. -/
def ttimeFinalCycles : Int → Nat → List Nat → Int
  | c, _, [] => c
  | c, m, a :: rest =>
    let r := getTtimeFromAbsSendtime c m a
    ttimeFinalCycles r.1 r.2.1 rest

theorem ttimeTrace_eq_zipWith : ∀ (inputs : List Nat) (c : Int) (m : Nat),
    ttimeTrace c m inputs =
      List.zipWith sendTimeMsFormula inputs (ttimeCycleTrace c m inputs) := by
  intro inputs
  induction inputs with
  | nil => intro c m; rfl
  | cons a rest ih =>
    intro c m
    rw [ttimeTrace, ttimeCycleTrace, List.zipWith_cons_cons]
    exact congrArg₂ List.cons rfl (ih _ _)

theorem getTtime_step {c : Int} {m a : Nat} (hm : m < 16777216) (ha : a < 16777216)
    (hne : ¬ c = -1) (hd : (a + 16777216 - m) % 16777216 < 8388608) :
    getTtimeFromAbsSendtime c m a =
      (if a < m then c + 1 else c, a,
        sendTimeMsFormula a (if a < m then c + 1 else c)) := by
  rw [getTtimeFromAbsSendtime]
  have h1 : a * 256 % 4294967296 = a * 256 := Nat.mod_eq_of_lt (by omega)
  have h2 : m * 256 % 4294967296 = m * 256 := Nat.mod_eq_of_lt (by omega)
  simp only [if_neg hne, h1, h2]
  have h3 : (a * 256 + 4294967296 - m * 256) % 4294967296
      = 256 * ((a + 16777216 - m) % 16777216) := by
    have he : a * 256 + 4294967296 - m * 256 = 256 * (a + 16777216 - m) := by omega
    rw [he, show (4294967296 : Nat) = 256 * 16777216 from rfl, Nat.mul_mod_mul_left]
  have hcond : 256 * ((a + 16777216 - m) % 16777216) < 2147483648 := by omega
  simp only [h3, if_pos hcond]

theorem sendTimeMsFormula_mono {a1 a2 : Nat} {c1 c2 : Int}
    (h : (a1 : Int) + 16777216 * c1 ≤ (a2 : Int) + 16777216 * c2) :
    sendTimeMsFormula a1 c1 ≤ sendTimeMsFormula a2 c2 := by
  rw [sendTimeMsFormula, sendTimeMsFormula]
  exact Int.ediv_le_ediv (by norm_num) (by omega)

theorem ttimeTrace_chain_aux :
    ∀ (inputs : List Nat) (c : Int) (m : Nat), 0 ≤ c → m < 16777216 →
    (∀ a ∈ inputs, a < 16777216) →
    List.Chain' (fun x y => (y + 16777216 - x) % 16777216 < 8388608) (m :: inputs) →
    List.Chain' (· ≤ ·) (sendTimeMsFormula m c :: ttimeTrace c m inputs) := by
  intro inputs
  induction inputs with
  | nil => intro c m _ _ _ _; exact List.chain'_singleton _
  | cons a rest ih =>
    intro c m hc hm hin hch
    have ha : a < 16777216 := hin a (List.mem_cons_self _ _)
    have hcc := List.chain'_cons.mp hch
    have hstep := @getTtime_step c m a hm ha (by omega) hcc.1
    rw [ttimeTrace, hstep]
    refine List.chain'_cons.mpr ⟨?_, ?_⟩
    · refine sendTimeMsFormula_mono ?_
      by_cases hlt : a < m
      · rw [if_pos hlt]
        have h1 : (m : Int) < 16777216 := by exact_mod_cast hm
        linarith
      · rw [if_neg hlt]
        have h1 : (m : Int) ≤ (a : Int) := by exact_mod_cast Nat.le_of_not_lt hlt
        linarith
    · exact ih _ a (by split_ifs <;> omega) ha
        (fun b hb => hin b (List.mem_cons_of_mem a hb)) hcc.2

theorem sorted_keys_length_le {l : List (Int × Int)}
    (hs : List.Pairwise (fun a b : Int × Int => a.1 < b.1) l)
    {lo hi : Int} (hmem : ∀ p ∈ l, lo ≤ p.1 ∧ p.1 ≤ hi) :
    l.length ≤ (hi + 1 - lo).toNat := by
  have hkeys : (l.map Prod.fst).Pairwise (· < ·) := List.pairwise_map.mpr hs
  have hnodup : (l.map Prod.fst).Nodup := hkeys.nodup
  have hsub : (l.map Prod.fst).toFinset ⊆ Finset.Icc lo hi := by
    intro x hx
    rw [List.mem_toFinset] at hx
    obtain ⟨p, hp, rfl⟩ := List.mem_map.mp hx
    exact Finset.mem_Icc.mpr ⟨(hmem p hp).1, (hmem p hp).2⟩
  have hcard := Finset.card_le_card hsub
  rw [List.toFinset_card_of_nodup hnodup, List.length_map] at hcard
  have hicc : (Finset.Icc lo hi).card = (hi + 1 - lo).toNat := Int.card_Icc lo hi
  rw [hicc] at hcard
  exact hcard

theorem culledArrivals_suffix (cfg : ProxyConfig) (st : ProxyState) (seq t : Int) :
    (culledArrivals cfg st seq t).IsSuffix st.packet_arrival_times := by
  rw [culledArrivals]
  split_ifs with h
  · cases st.periodic_window_start_seq with
    | none => exact List.suffix_refl _
    | some c =>
      dsimp only
      split_ifs with h2
      · exact List.dropWhile_suffix _
      · exact List.suffix_refl _
  · exact List.suffix_refl _

theorem culledArrivals_mem {cfg : ProxyConfig} {st : ProxyState} {seq t : Int}
    {p : Int × Int} (h : p ∈ culledArrivals cfg st seq t) : p ∈ st.packet_arrival_times :=
  (culledArrivals_suffix cfg st seq t).sublist.mem h

theorem culledArrivals_sorted {cfg : ProxyConfig} {st : ProxyState} {seq t : Int}
    (hs : MapSorted st.packet_arrival_times) :
    MapSorted (culledArrivals cfg st seq t) :=
  List.Pairwise.sublist (culledArrivals_suffix cfg st seq t).sublist hs

theorem culledArrivals_lookup (cfg : ProxyConfig) (st : ProxyState) (seq t : Int) :
    mapLookup (culledArrivals cfg st seq t) seq = mapLookup st.packet_arrival_times seq := by
  rw [culledArrivals]
  split_ifs with h
  · cases st.periodic_window_start_seq with
    | none => rfl
    | some c =>
      dsimp only
      split_ifs with h2
      · refine mapLookup_dropWhile ?_
        intro q hq
        simp only [Bool.and_eq_true, decide_eq_true_eq] at hq
        omega
      · rfl
  · rfl

theorem culledArrivals_contains {cfg : ProxyConfig} {st : ProxyState} {seq t : Int}
    (h : mapContains st.packet_arrival_times seq = true) :
    mapContains (culledArrivals cfg st seq t) seq = true := by
  obtain ⟨p, hp, hpk⟩ := mapContains_iff.mp h
  refine mapContains_iff.mpr ⟨p, ?_, hpk⟩
  rw [culledArrivals]
  split_ifs with h1
  · cases st.periodic_window_start_seq with
    | none => exact hp
    | some c =>
      dsimp only
      split_ifs with h2
      · refine mem_dropWhile_of_mem hp ?_
        have hd : decide (p.1 < seq) = false := by
          simp only [decide_eq_false_iff_not]
          omega
        rw [hd, Bool.false_and]
      · exact hp
  · exact hp

theorem culledArrivals_of_disabled {cfg : ProxyConfig} {st : ProxyState} {seq t : Int}
    (h : st.send_periodic_feedback = false) :
    culledArrivals cfg st seq t = st.packet_arrival_times := by
  rw [culledArrivals, if_neg (by rw [h]; simp)]

theorem loweredCursor_of_disabled {st : ProxyState} {seq : Int}
    (h : st.send_periodic_feedback = false) :
    loweredCursor st seq = st.periodic_window_start_seq := by
  rw [loweredCursor, if_neg (by rw [h]; simp)]

/-! ### Claim theorems -/

/-- C8: `TimeUntilNextProcess` returns an effectively-unbounded duration (one
day, 86400000 ms) whenever periodic feedback is disabled; returns 0 if no
periodic tick has occurred yet (`last_process_time_ms_ == -1`) or the elapsed
time since the last tick is at least the current send interval; and otherwise
returns the positive residual `last_process_time_ms_ + send_interval_ms_ - now`. -/
theorem C8_timeUntilNextProcess (st : ProxyState) (now : Int) :
    (st.send_periodic_feedback = false → timeUntilNextProcess st now = 86400000) ∧
    (st.send_periodic_feedback = true →
      (st.last_process_time_ms = -1 ∨ st.send_interval_ms ≤ now - st.last_process_time_ms) →
      timeUntilNextProcess st now = 0) ∧
    (st.send_periodic_feedback = true → st.last_process_time_ms ≠ -1 →
      now - st.last_process_time_ms < st.send_interval_ms →
      timeUntilNextProcess st now = st.last_process_time_ms + st.send_interval_ms - now ∧
      0 < timeUntilNextProcess st now) := by
  rw [timeUntilNextProcess]
  split_ifs with h1 h2
  · refine ⟨fun _ => by norm_num, fun hp _ => ?_, fun hp _ _ => ?_⟩
    · rw [hp] at h1; cases h1
    · rw [hp] at h1; cases h1
  · refine ⟨fun hf => absurd hf h1, fun hp hor => ?_, fun _ _ _ => ⟨rfl, by omega⟩⟩
    rcases hor with h | h
    · exact absurd h h2.1
    · omega
  · refine ⟨fun hf => absurd hf h1, fun _ _ => rfl, fun _ hne hlt => absurd ⟨hne, hlt⟩ h2⟩

/-- Witness for C8 at a concrete state: periodic feedback enabled, last tick at
100 ms, interval 50 ms, now 120 ms, so the residual is 30 ms. -/
theorem C8_timeUntilNextProcess_witness :
    timeUntilNextProcess ⟨[], none, true, 0, 0, 50, 100, none, -1, 0, 0, 0⟩ 120 = 30 ∧
    (0 : Int) < 30 := by
  have h := (C8_timeUntilNextProcess ⟨[], none, true, 0, 0, 50, 100, none, -1, 0, 0, 0⟩ 120).2.2
    rfl (by decide) (by decide)
  exact ⟨h.1.trans (by decide), by decide⟩

theorem sendPeriodicFeedbacks_map_eq (cap : Nat) (st : ProxyState) :
    ((sendPeriodicFeedbacks cap st).1).packet_arrival_times = st.packet_arrival_times := by
  rw [sendPeriodicFeedbacks]
  cases hcur : st.periodic_window_start_seq with
  | none => rfl
  | some c => exact (drainLoop_fields cap _ st).1

/-- C9: a periodic drain (`Process` / `SendPeriodicFeedbacks`) never removes an
entry from the arrival window: `packet_arrival_times_` is identical before and
after the drain, however many feedback messages it emits. -/
theorem C9_periodic_drain_frame (cap : Nat) (st : ProxyState) (now : Int) :
    ((process cap st now).1).packet_arrival_times = st.packet_arrival_times ∧
    ((sendPeriodicFeedbacks cap st).1).packet_arrival_times = st.packet_arrival_times := by
  refine ⟨?_, sendPeriodicFeedbacks_map_eq cap st⟩
  rw [process]
  split_ifs with h
  · rfl
  · exact sendPeriodicFeedbacks_map_eq cap _

/-- Configuration used by the concrete scenarios below: 500 ms back window,
50/250 ms min/max report intervals, bandwidth fraction 0.05, 200 ms BWE and
1000 ms telemetry polling intervals. -/
def testCfg : ProxyConfig := ⟨500, 50, 250, 1 / 20, 200, 1000⟩

/-- Window state reachable by delivering sequence number 5 (arrival time 10)
and then running one periodic drain, which advances the cursor to 6. -/
def dupState : ProxyState := ⟨[(5, 10)], some 6, true, 0, 0, 50, -1, none, -1, 0, 0, 0⟩

/-- Counterexample to C1: `dupState` already holds sequence number 5, yet a
second delivery of 5 is not a no-op — the pre-insertion cursor lowering of
`OnPacketArrival` (line 210-212) runs before the duplicate check (line 216)
and moves `periodic_window_start_seq_` from 6 back to 5. -/
theorem C1_counterexample :
    mapContains dupState.packet_arrival_times 5 = true ∧
    ¬ ((onPacketArrivalSeq testCfg 100 dupState 5 20 none).1.packet_arrival_times =
          dupState.packet_arrival_times ∧
        (onPacketArrivalSeq testCfg 100 dupState 5 20 none).1.periodic_window_start_seq =
          dupState.periodic_window_start_seq) := by
  refine ⟨by decide, ?_⟩
  intro hcon
  have h := hcon.2
  revert h
  decide

/-- C1 (amended): delivering a packet whose unwrapped sequence number is already
in the arrival window never inserts or overwrites an entry (the stored arrival
time for that number is unchanged), sends nothing, leaves the feedback counter
unchanged, and only ever removes aged-out leading entries from the map; when
periodic feedback is disabled it is a complete no-op. (With periodic feedback
enabled the pre-insertion cull and cursor lowering still run before the
duplicate check, so the map may lose aged-out leading entries and the cursor
may move down to `seq`.) -/
theorem C1_duplicate_insert (cfg : ProxyConfig) (cap : Nat) (st : ProxyState)
    (seq arrival_time : Int) (req : Option FeedbackRequest)
    (hdup : mapContains st.packet_arrival_times seq = true) :
    (onPacketArrivalSeq cfg cap st seq arrival_time req).2 = [] ∧
    (onPacketArrivalSeq cfg cap st seq arrival_time req).1.feedback_packet_count =
      st.feedback_packet_count ∧
    (onPacketArrivalSeq cfg cap st seq arrival_time req).1.packet_arrival_times.IsSuffix
      st.packet_arrival_times ∧
    mapLookup (onPacketArrivalSeq cfg cap st seq arrival_time req).1.packet_arrival_times seq =
      mapLookup st.packet_arrival_times seq ∧
    (st.send_periodic_feedback = false →
      onPacketArrivalSeq cfg cap st seq arrival_time req = (st, [])) := by
  have hdup1 : mapContains (culledArrivals cfg st seq arrival_time) seq = true :=
    culledArrivals_contains hdup
  rw [onPacketArrivalSeq]
  dsimp only
  rw [if_pos hdup1]
  refine ⟨rfl, rfl, culledArrivals_suffix cfg st seq arrival_time,
    culledArrivals_lookup cfg st seq arrival_time, fun hdis => ?_⟩
  rw [culledArrivals_of_disabled hdis, loweredCursor_of_disabled hdis]

/-- Witness for the amended C1: with periodic feedback disabled, a duplicate
delivery of sequence number 5 is a complete no-op. -/
theorem C1_duplicate_insert_witness :
    mapContains ([(5, 10)] : ArrivalMap) 5 = true ∧
    onPacketArrivalSeq testCfg 100 ⟨[(5, 10)], some 6, false, 0, 0, 50, -1, none, -1, 0, 0, 0⟩
        5 20 none =
      (⟨[(5, 10)], some 6, false, 0, 0, 50, -1, none, -1, 0, 0, 0⟩, []) :=
  ⟨by decide,
    (C1_duplicate_insert testCfg 100 ⟨[(5, 10)], some 6, false, 0, 0, 50, -1, none, -1, 0, 0, 0⟩
      5 20 none (by decide)).2.2.2.2 rfl⟩

theorem timeToSendBweMessage_frame (cfg : ProxyConfig) (s : ProxyState) (now : Int) :
    (timeToSendBweMessage cfg s now).1.packet_arrival_times = s.packet_arrival_times ∧
    (timeToSendBweMessage cfg s now).1.periodic_window_start_seq = s.periodic_window_start_seq ∧
    (timeToSendBweMessage cfg s now).1.feedback_packet_count = s.feedback_packet_count ∧
    (timeToSendBweMessage cfg s now).1.unwrap_last = s.unwrap_last := by
  rw [timeToSendBweMessage]
  split_ifs <;> exact ⟨rfl, rfl, rfl, rfl⟩

theorem timeToSaveIntoRedis_frame (cfg : ProxyConfig) (s : ProxyState) (now : Int) :
    (timeToSaveIntoRedis cfg s now).1.packet_arrival_times = s.packet_arrival_times ∧
    (timeToSaveIntoRedis cfg s now).1.periodic_window_start_seq = s.periodic_window_start_seq ∧
    (timeToSaveIntoRedis cfg s now).1.feedback_packet_count = s.feedback_packet_count ∧
    (timeToSaveIntoRedis cfg s now).1.unwrap_last = s.unwrap_last := by
  rw [timeToSaveIntoRedis]
  split_ifs <;> exact ⟨rfl, rfl, rfl, rfl⟩

/-- Initial-like proxy state used in the C5 scenario: media SSRC 0, empty
window, uninitialized send-time unwrap state. -/
def c5State : ProxyState := ⟨[], none, true, 0, 0, 50, -1, none, -1, 0, 0, 0⟩

/-- Header with SSRC 42, transport sequence number extension present. -/
def c5Header : RTPHeader := ⟨42, ⟨true, 7, none, 0⟩⟩

/-- Counterexample to C5: for a packet whose arrival timestamp (-1) is out of
range, `IncomingPacket` still mutates proxy state — the `media_ssrc_ =
header.ssrc` assignment (line 91) runs before `OnPacketArrival`'s guard, so
`media_ssrc_` changes from 0 to 42 (and the send-time unwrap state is fed as
well). -/
theorem C5_counterexample :
    (-1 : Int) < 0 ∧
    (incomingPacket testCfg 100 c5State 0 (-1) c5Header).1.media_ssrc ≠ c5State.media_ssrc := by
  exact ⟨by decide, by decide⟩

/-- C5 (amended): for an arrival timestamp that is negative or above the
maximum representable millisecond value, `OnPacketArrival` itself mutates
nothing and sends nothing, and the enclosing `IncomingPacket` leaves every
feedback-related field (arrival window, periodic cursor, feedback counter,
sequence unwrapper) unchanged — but `IncomingPacket` still records the
packet's SSRC and feeds the send-time unwrapper and the collaborator polling
timers, so not all proxy fields are unchanged. -/
theorem C5_out_of_range_arrival (cfg : ProxyConfig) (cap : Nat) (st : ProxyState)
    (raw : Nat) (arrival_time : Int) (req : Option FeedbackRequest)
    (ht : arrival_time < 0 ∨ arrival_time > kMaxTimeMs) :
    onPacketArrival cfg cap st raw arrival_time req = (st, []) ∧
    ∀ (now : Int) (header : RTPHeader),
      header.extension.hasTransportSequenceNumber = true →
      ((incomingPacket cfg cap st now arrival_time header).1.packet_arrival_times =
          st.packet_arrival_times ∧
        (incomingPacket cfg cap st now arrival_time header).1.periodic_window_start_seq =
          st.periodic_window_start_seq ∧
        (incomingPacket cfg cap st now arrival_time header).1.feedback_packet_count =
          st.feedback_packet_count ∧
        (incomingPacket cfg cap st now arrival_time header).1.unwrap_last = st.unwrap_last ∧
        (incomingPacket cfg cap st now arrival_time header).2 = []) := by
  have hguard : ∀ (st' : ProxyState) (raw' : Nat) (req' : Option FeedbackRequest),
      onPacketArrival cfg cap st' raw' arrival_time req' = (st', []) := by
    intro st' raw' req'
    rw [onPacketArrival, if_pos ht]
  refine ⟨hguard st raw req, fun now header hts => ?_⟩
  rw [incomingPacket, if_neg (by rw [hts]; simp)]
  dsimp only
  rw [hguard]
  refine ⟨?_, ?_, ?_, ?_, rfl⟩
  · rw [(timeToSaveIntoRedis_frame cfg _ now).1, (timeToSendBweMessage_frame cfg _ now).1]
  · rw [(timeToSaveIntoRedis_frame cfg _ now).2.1, (timeToSendBweMessage_frame cfg _ now).2.1]
  · rw [(timeToSaveIntoRedis_frame cfg _ now).2.2.1,
      (timeToSendBweMessage_frame cfg _ now).2.2.1]
  · rw [(timeToSaveIntoRedis_frame cfg _ now).2.2.2,
      (timeToSendBweMessage_frame cfg _ now).2.2.2]

/-- Witness for the amended C5 at arrival time -1. -/
theorem C5_out_of_range_arrival_witness :
    ((-1 : Int) < 0 ∨ (-1 : Int) > kMaxTimeMs) ∧
    onPacketArrival testCfg 100 c5State 7 (-1) none = (c5State, []) :=
  ⟨Or.inl (by decide),
    (C5_out_of_range_arrival testCfg 100 c5State 7 (-1) none (Or.inl (by decide))).1⟩

theorem sendFeedbackOnRequest_mem {cap : Nat} {s : ProxyState} {seqn : Int}
    {fr : FeedbackRequest} {r : Int × Int}
    (hr : r ∈ (sendFeedbackOnRequest cap s seqn fr).1.packet_arrival_times) :
    r ∈ s.packet_arrival_times := by
  rw [sendFeedbackOnRequest] at hr
  split_ifs at hr
  · exact hr
  · exact mem_of_mem_dropWhile hr

/-- C2: after every successful insertion of a packet arrival (in-range arrival
time was already checked by the caller; the sequence number is not yet
present), the span of the arrival window — the difference between any two keys,
in particular between its maximum and minimum — is at most 32768 = 2^15: the
span prune (lines 221-233) erases every entry below `max_key -
kMaxNumberOfPackets` right after the insertion. -/
theorem C2_window_span (cfg : ProxyConfig) (cap : Nat) (st : ProxyState)
    (seq arrival_time : Int) (req : Option FeedbackRequest)
    (hs : MapSorted st.packet_arrival_times)
    (hfresh : mapContains st.packet_arrival_times seq = false) :
    ∀ p ∈ (onPacketArrivalSeq cfg cap st seq arrival_time req).1.packet_arrival_times,
    ∀ q ∈ (onPacketArrivalSeq cfg cap st seq arrival_time req).1.packet_arrival_times,
    p.1 - q.1 ≤ 32768 := by
  have hfresh1 : mapContains (culledArrivals cfg st seq arrival_time) seq = false := by
    rw [mapContains_eq_false]
    intro p hp
    exact mapContains_eq_false.mp hfresh p (culledArrivals_mem hp)
  have hs1 : MapSorted (culledArrivals cfg st seq arrival_time) := culledArrivals_sorted hs
  have hs2 : MapSorted (mapInsert seq arrival_time (culledArrivals cfg st seq arrival_time)) :=
    mapInsert_sorted hs1
  obtain ⟨mx, hmx⟩ : ∃ mx,
      (mapInsert seq arrival_time (culledArrivals cfg st seq arrival_time)).getLast? =
        some mx := by
    cases h : (mapInsert seq arrival_time (culledArrivals cfg st seq arrival_time)).getLast? with
    | none => exact absurd (List.getLast?_eq_none_iff.mp h) mapInsert_ne_nil
    | some p => exact ⟨p, rfl⟩
  have hmem3 : ∀ r ∈ (onPacketArrivalSeq cfg cap st seq arrival_time req).1.packet_arrival_times,
      r ∈ lowerBound (mapInsert seq arrival_time (culledArrivals cfg st seq arrival_time))
        ((((mapInsert seq arrival_time (culledArrivals cfg st seq arrival_time)).getLast?).map
            Prod.fst).getD 0 - kMaxNumberOfPackets) := by
    intro r hr
    rw [onPacketArrivalSeq] at hr
    dsimp only at hr
    rw [if_neg (by rw [hfresh1]; simp)] at hr
    cases req with
    | none => exact hr
    | some fr => exact sendFeedbackOnRequest_mem hr
  have hgetd : (((mapInsert seq arrival_time
      (culledArrivals cfg st seq arrival_time)).getLast?).map Prod.fst).getD 0 = mx.1 := by
    rw [hmx]
    rfl
  intro p hp q hq
  have hp3 := hmem3 p hp
  have hq3 := hmem3 q hq
  have hple : p.1 ≤ mx.1 :=
    sorted_key_le_getLast hs2 (mem_of_mem_dropWhile hp3) hmx
  have hqge := lowerBound_key_ge hs2 q hq3
  rw [hgetd] at hqge
  have hk : kMaxNumberOfPackets = 32768 := rfl
  omega

/-- Witness for C2: inserting sequence number 40000 into a window holding key 1
prunes the old entry and the resulting window has span 0 ≤ 32768. -/
theorem C2_window_span_witness :
    MapSorted ([(1, 5)] : ArrivalMap) ∧
    mapContains ([(1, 5)] : ArrivalMap) 40000 = false ∧
    ∀ p ∈ (onPacketArrivalSeq testCfg 100 ⟨[(1, 5)], some 1, true, 0, 0, 50, -1, none, -1, 0, 0, 0⟩
        40000 20 none).1.packet_arrival_times,
    ∀ q ∈ (onPacketArrivalSeq testCfg 100 ⟨[(1, 5)], some 1, true, 0, 0, 50, -1, none, -1, 0, 0, 0⟩
        40000 20 none).1.packet_arrival_times,
    p.1 - q.1 ≤ 32768 :=
  ⟨by decide, by decide,
    C2_window_span testCfg 100 ⟨[(1, 5)], some 1, true, 0, 0, 50, -1, none, -1, 0, 0, 0⟩
      40000 20 none (by decide) (by decide)⟩

/-- C4: an on-demand feedback request with `sequence_count = 0` sends no
message and changes no state; with `sequence_count = K > 0` it sends exactly
one message whose records cover at most the K sequence numbers of
`[seq-K+1, seq]` that are present in the window, and afterwards the window
holds no entry with key below `seq-K+1` (the unconditional
`erase(begin(), begin_iterator)` of line 294). -/
theorem C4_on_demand (cap : Nat) (st : ProxyState) (seqn : Int) (req : FeedbackRequest)
    (hs : MapSorted st.packet_arrival_times) :
    (req.sequence_count = 0 → sendFeedbackOnRequest cap st seqn req = (st, [])) ∧
    (0 < req.sequence_count →
      (sendFeedbackOnRequest cap st seqn req).2.length = 1 ∧
      (∀ m ∈ (sendFeedbackOnRequest cap st seqn req).2,
        m.2.length ≤ req.sequence_count ∧
        ∀ p ∈ m.2, seqn - (req.sequence_count : Int) + 1 ≤ p.1 ∧ p.1 ≤ seqn ∧
          p ∈ st.packet_arrival_times) ∧
      ∀ p ∈ (sendFeedbackOnRequest cap st seqn req).1.packet_arrival_times,
        seqn - (req.sequence_count : Int) + 1 ≤ p.1) := by
  constructor
  · intro h0
    rw [sendFeedbackOnRequest, if_pos h0]
  · intro hK
    rw [sendFeedbackOnRequest, if_neg (by omega)]
    dsimp only
    have hsL : MapSorted (lowerBound st.packet_arrival_times
        (seqn - (req.sequence_count : Int) + 1)) :=
      List.Pairwise.sublist (List.dropWhile_sublist _) hs
    have hW : (lowerBound st.packet_arrival_times
          (seqn - (req.sequence_count : Int) + 1)).take
        ((lowerBound st.packet_arrival_times
            (seqn - (req.sequence_count : Int) + 1)).takeWhile
          (fun p => decide (p.1 ≤ seqn))).length =
        (lowerBound st.packet_arrival_times
            (seqn - (req.sequence_count : Int) + 1)).takeWhile
          (fun p => decide (p.1 ≤ seqn)) := take_length_takeWhile _ _
    refine ⟨rfl, ?_, ?_⟩
    · intro m hm
      rw [List.mem_singleton] at hm
      subst hm
      dsimp only
      rw [buildFeedbackPacket]
      dsimp only
      rw [hW]
      have hmemW : ∀ p ∈ (lowerBound st.packet_arrival_times
            (seqn - (req.sequence_count : Int) + 1)).takeWhile
          (fun p => decide (p.1 ≤ seqn)),
          seqn - (req.sequence_count : Int) + 1 ≤ p.1 ∧ p.1 ≤ seqn ∧
            p ∈ st.packet_arrival_times := by
        intro p hp
        have h1 : p.1 ≤ seqn := by
          have := List.mem_takeWhile_imp hp
          simpa using this
        have h2 := mem_of_mem_takeWhile hp
        exact ⟨lowerBound_key_ge hs p h2, h1, mem_of_mem_dropWhile h2⟩
      constructor
      · have hsW : List.Pairwise (fun a b : Int × Int => a.1 < b.1)
            ((lowerBound st.packet_arrival_times
                (seqn - (req.sequence_count : Int) + 1)).takeWhile
              (fun p => decide (p.1 ≤ seqn))) :=
          List.Pairwise.sublist (List.takeWhile_sublist _) hsL
        have hlen := sorted_keys_length_le hsW
          (fun p hp => ⟨(hmemW p hp).1, (hmemW p hp).2.1⟩)
        have htonat : (seqn + 1 - (seqn - (req.sequence_count : Int) + 1)).toNat =
            req.sequence_count := by omega
        rw [htonat] at hlen
        have := List.length_take cap ((lowerBound st.packet_arrival_times
            (seqn - (req.sequence_count : Int) + 1)).takeWhile
          (fun p => decide (p.1 ≤ seqn)))
        omega
      · intro p hp
        exact hmemW p (List.mem_of_mem_take hp)
    · intro p hp
      exact lowerBound_key_ge hs p hp

/-- Witness for C4: requesting the last 3 sequence numbers up to 5 from a
window holding 3 and 5 sends exactly one message. -/
theorem C4_on_demand_witness :
    MapSorted ([(3, 30), (5, 50)] : ArrivalMap) ∧
    (sendFeedbackOnRequest 100
        ⟨[(3, 30), (5, 50)], none, true, 0, 0, 50, -1, none, -1, 0, 0, 0⟩ 5
        ⟨true, 3⟩).2.length = 1 :=
  ⟨by decide,
    ((C4_on_demand 100 ⟨[(3, 30), (5, 50)], none, true, 0, 0, 50, -1, none, -1, 0, 0, 0⟩ 5
      ⟨true, 3⟩ (by decide)).2 (by decide)).1⟩

theorem dropWhile_le_key_gt {m : ArrivalMap} (hsm : MapSorted m) {s : Int} :
    ∀ p ∈ m.dropWhile (fun p => decide (p.1 ≤ s)), s < p.1 := by
  induction m with
  | nil => intro p hp; cases hp
  | cons a t ih =>
    intro p hp
    rw [List.dropWhile_cons] at hp
    by_cases ha : a.1 ≤ s
    · rw [if_pos (by simpa using ha)] at hp
      exact ih (sorted_tail hsm) p hp
    · rw [if_neg (by simpa using ha)] at hp
      rcases List.mem_cons.mp hp with rfl | ht
      · omega
      · have := sorted_head_lt hsm p ht
        omega

/-- State reachable from the freshly constructed proxy by a single arrival of
(unwrapped) sequence number 40000 at time 100: the window holds only 40000. -/
def lateState : ProxyState :=
  (onPacketArrivalSeq testCfg 100 ⟨[], none, true, 0, 0, 50, -1, none, -1, 0, 0, 0⟩
    40000 100 none).1

/-- C10: delivering the very old sequence number 1 to `lateState` with an
attached feedback request of count 1 makes `OnPacketArrival` insert 1, prune it
right away by the span bound (1 < 40000 - 32768), and then call
`SendFeedbackOnRequest`, which hands the builder an empty record range
`[begin_iterator, end_iterator)` — the sent message carries no records and its
base time is read through `begin_iterator`, which here points at the unrelated
entry 40000 (time 100 ms → 100000 µs), violating the builder's
`RTC_DCHECK(begin_iterator != end_iterator)` precondition. Conversely, whenever
at least one sequence number of `[seq-K+1, seq]` is present in the window, the
range handed to the builder (the `takeWhile` below, whose length is the
builder's `n` argument in `sendFeedbackOnRequest`) is non-empty, so the error
branch is unreachable. -/
theorem C10_empty_range_on_demand :
    ((onPacketArrivalSeq testCfg 100 lateState 1 200 (some ⟨true, 1⟩)).2.map (fun m => m.2) =
        [[]] ∧
      (onPacketArrivalSeq testCfg 100 lateState 1 200 (some ⟨true, 1⟩)).2.map
        (fun m => m.1.base_time_us) = [some 100000]) ∧
    ∀ (st : ProxyState) (seqn : Int) (req : FeedbackRequest),
      MapSorted st.packet_arrival_times → 0 < req.sequence_count →
      (∃ p ∈ st.packet_arrival_times,
        seqn - (req.sequence_count : Int) + 1 ≤ p.1 ∧ p.1 ≤ seqn) →
      (lowerBound st.packet_arrival_times
          (seqn - (req.sequence_count : Int) + 1)).takeWhile
        (fun p => decide (p.1 ≤ seqn)) ≠ [] := by
  refine ⟨⟨by decide, by decide⟩, ?_⟩
  intro st seqn req hs hK ⟨p, hp, h1, h2⟩
  have hsL : MapSorted (lowerBound st.packet_arrival_times
      (seqn - (req.sequence_count : Int) + 1)) :=
    List.Pairwise.sublist (List.dropWhile_sublist _) hs
  have hpL : p ∈ lowerBound st.packet_arrival_times
      (seqn - (req.sequence_count : Int) + 1) := by
    refine mem_dropWhile_of_mem hp ?_
    simp only [decide_eq_false_iff_not]
    omega
  have hsplit : p ∈ (lowerBound st.packet_arrival_times
        (seqn - (req.sequence_count : Int) + 1)).takeWhile
          (fun p => decide (p.1 ≤ seqn)) ++
      (lowerBound st.packet_arrival_times
        (seqn - (req.sequence_count : Int) + 1)).dropWhile
          (fun p => decide (p.1 ≤ seqn)) := by
    rw [List.takeWhile_append_dropWhile]
    exact hpL
  rcases List.mem_append.mp hsplit with hw | hd
  · exact List.ne_nil_of_mem hw
  · have := dropWhile_le_key_gt hsL p hd
    omega

/-- Witness for C10's reachability half: with sequence numbers 3 and 5 in the
window, a request of count 3 up to 5 has a non-empty builder range. -/
theorem C10_empty_range_on_demand_witness :
    MapSorted ([(3, 30), (5, 50)] : ArrivalMap) ∧
    (lowerBound ([(3, 30), (5, 50)] : ArrivalMap) (5 - (3 : Nat) + 1)).takeWhile
      (fun p => decide (p.1 ≤ 5)) ≠ [] :=
  ⟨by decide,
    C10_empty_range_on_demand.2
      ⟨[(3, 30), (5, 50)], none, true, 0, 0, 50, -1, none, -1, 0, 0, 0⟩ 5 ⟨true, 3⟩
      (by decide) (by decide) ⟨(5, 50), by decide, by decide, by decide⟩⟩

theorem safeClamp_mem {v lo hi : ℚ} (h : lo ≤ hi) :
    lo ≤ safeClamp v lo hi ∧ safeClamp v lo hi ≤ hi := by
  rw [safeClamp]
  split_ifs <;> constructor <;> linarith

theorem safeClamp_mono {v1 v2 lo hi : ℚ} (hlh : lo ≤ hi) (h : v1 ≤ v2) :
    safeClamp v1 lo hi ≤ safeClamp v2 lo hi := by
  rw [safeClamp, safeClamp]
  split_ifs <;> linarith

theorem onBitrateChanged_interval (cfg : ProxyConfig) (st : ProxyState) (b : Int) :
    (onBitrateChanged cfg st b).send_interval_ms =
      ⌊(1 / 2 : ℚ) + 544000 / safeClamp (cfg.bandwidth_fraction * (b : ℚ))
          (544000 / (cfg.max_interval_ms : ℚ)) (544000 / (cfg.min_interval_ms : ℚ))⌋ := by
  rw [onBitrateChanged]
  norm_num

/-- C7: recomputing the send interval for a higher target bitrate never
increases it, and for every bitrate the recomputed interval lies within
`[min_interval, max_interval]` — for a well-formed configuration
(`0 < min_interval ≤ max_interval`, `0 ≤ bandwidth_fraction`). -/
theorem C7_onBitrateChanged (cfg : ProxyConfig) (st : ProxyState)
    (hmin : 0 < cfg.min_interval_ms) (hle : cfg.min_interval_ms ≤ cfg.max_interval_ms)
    (hfrac : 0 ≤ cfg.bandwidth_fraction) :
    (∀ b1 b2 : Int, b1 ≤ b2 →
      (onBitrateChanged cfg st b2).send_interval_ms ≤
        (onBitrateChanged cfg st b1).send_interval_ms) ∧
    (∀ b : Int, cfg.min_interval_ms ≤ (onBitrateChanged cfg st b).send_interval_ms ∧
      (onBitrateChanged cfg st b).send_interval_ms ≤ cfg.max_interval_ms) := by
  have hMn : (0 : ℚ) < (cfg.min_interval_ms : ℚ) := by exact_mod_cast hmin
  have hMx : (0 : ℚ) < (cfg.max_interval_ms : ℚ) := by
    have : (0 : Int) < cfg.max_interval_ms := by omega
    exact_mod_cast this
  have hMle : (cfg.min_interval_ms : ℚ) ≤ (cfg.max_interval_ms : ℚ) := by exact_mod_cast hle
  have hlo : (0 : ℚ) < 544000 / (cfg.max_interval_ms : ℚ) := by positivity
  have hlohi : 544000 / (cfg.max_interval_ms : ℚ) ≤ 544000 / (cfg.min_interval_ms : ℚ) :=
    div_le_div_of_nonneg_left (by norm_num) hMn hMle
  have hclamp : ∀ v : ℚ,
      544000 / (cfg.max_interval_ms : ℚ) ≤
          safeClamp v (544000 / (cfg.max_interval_ms : ℚ)) (544000 / (cfg.min_interval_ms : ℚ)) ∧
        safeClamp v (544000 / (cfg.max_interval_ms : ℚ)) (544000 / (cfg.min_interval_ms : ℚ)) ≤
          544000 / (cfg.min_interval_ms : ℚ) :=
    fun v => safeClamp_mem hlohi
  have hxlow : ∀ v : ℚ, (cfg.min_interval_ms : ℚ) ≤
      544000 / safeClamp v (544000 / (cfg.max_interval_ms : ℚ))
        (544000 / (cfg.min_interval_ms : ℚ)) := by
    intro v
    have h1 := (hclamp v).2
    have h2 : (0 : ℚ) < safeClamp v (544000 / (cfg.max_interval_ms : ℚ))
        (544000 / (cfg.min_interval_ms : ℚ)) := lt_of_lt_of_le hlo (hclamp v).1
    have h3 : 544000 / (544000 / (cfg.min_interval_ms : ℚ)) ≤
        544000 / safeClamp v (544000 / (cfg.max_interval_ms : ℚ))
          (544000 / (cfg.min_interval_ms : ℚ)) :=
      div_le_div_of_nonneg_left (by norm_num) h2 h1
    have h4 : (544000 : ℚ) / (544000 / (cfg.min_interval_ms : ℚ)) =
        (cfg.min_interval_ms : ℚ) := by
      field_simp
    linarith
  have hxhigh : ∀ v : ℚ,
      544000 / safeClamp v (544000 / (cfg.max_interval_ms : ℚ))
        (544000 / (cfg.min_interval_ms : ℚ)) ≤ (cfg.max_interval_ms : ℚ) := by
    intro v
    have h1 := (hclamp v).1
    have h3 : 544000 / safeClamp v (544000 / (cfg.max_interval_ms : ℚ))
          (544000 / (cfg.min_interval_ms : ℚ)) ≤
        544000 / (544000 / (cfg.max_interval_ms : ℚ)) :=
      div_le_div_of_nonneg_left (by norm_num) hlo h1
    have h4 : (544000 : ℚ) / (544000 / (cfg.max_interval_ms : ℚ)) =
        (cfg.max_interval_ms : ℚ) := by
      field_simp
    linarith
  constructor
  · intro b1 b2 hb
    rw [onBitrateChanged_interval, onBitrateChanged_interval]
    refine Int.floor_mono ?_
    have hvle : cfg.bandwidth_fraction * (b1 : ℚ) ≤ cfg.bandwidth_fraction * (b2 : ℚ) :=
      mul_le_mul_of_nonneg_left (by exact_mod_cast hb) hfrac
    have hcle := safeClamp_mono hlohi hvle
    have h2 : (0 : ℚ) < safeClamp (cfg.bandwidth_fraction * (b1 : ℚ))
        (544000 / (cfg.max_interval_ms : ℚ)) (544000 / (cfg.min_interval_ms : ℚ)) :=
      lt_of_lt_of_le hlo (hclamp _).1
    have h3 : (544000 : ℚ) /
          safeClamp (cfg.bandwidth_fraction * (b2 : ℚ)) (544000 / (cfg.max_interval_ms : ℚ))
            (544000 / (cfg.min_interval_ms : ℚ)) ≤
        544000 /
          safeClamp (cfg.bandwidth_fraction * (b1 : ℚ)) (544000 / (cfg.max_interval_ms : ℚ))
            (544000 / (cfg.min_interval_ms : ℚ)) :=
      div_le_div_of_nonneg_left (by norm_num) h2 hcle
    linarith
  · intro b
    rw [onBitrateChanged_interval]
    constructor
    · refine Int.le_floor.mpr ?_
      have := hxlow (cfg.bandwidth_fraction * (b : ℚ))
      linarith
    · refine Int.lt_add_one_iff.mp ?_
      refine Int.floor_lt.mpr ?_
      have := hxhigh (cfg.bandwidth_fraction * (b : ℚ))
      push_cast
      linarith

/-- Witness for C7 at the test configuration (min 50 ms, max 250 ms, fraction
0.05) and bitrate 1 Mbps. -/
theorem C7_onBitrateChanged_witness :
    (0 : Int) < testCfg.min_interval_ms ∧ testCfg.min_interval_ms ≤ testCfg.max_interval_ms ∧
    (0 : ℚ) ≤ testCfg.bandwidth_fraction ∧
    (testCfg.min_interval_ms ≤ (onBitrateChanged testCfg c5State 1000000).send_interval_ms ∧
      (onBitrateChanged testCfg c5State 1000000).send_interval_ms ≤ testCfg.max_interval_ms) :=
  ⟨by decide, by decide, by show (0 : ℚ) ≤ 1 / 20; norm_num,
    (C7_onBitrateChanged testCfg c5State (by decide) (by decide)
      (by show (0 : ℚ) ≤ 1 / 20; norm_num)).2 1000000⟩

/-- C6: feeding the send-time unwrapper a stream of 24-bit values that
increases monotonically modulo 2^24 (each wrap-safe difference is in
(0, 2^23)) and spans at least three wrap cycles yields a monotonically
non-decreasing sequence of millisecond outputs, and each output equals
`round((input / 2^18 + 64 · cycles) · 1000)` (`sendTimeMsFormula`) at the
cycle count in effect for that packet. -/
theorem C6_send_time_unwrap (inputs : List Nat)
    (hrange : ∀ a ∈ inputs, a < 16777216)
    (hmono : List.Chain' (fun x y => 0 < (y + 16777216 - x) % 16777216 ∧
      (y + 16777216 - x) % 16777216 < 8388608) inputs)
    (hspan : 3 ≤ ttimeFinalCycles (-1) 0 inputs) :
    List.Chain' (· ≤ ·) (ttimeTrace (-1) 0 inputs) ∧
    ttimeTrace (-1) 0 inputs =
      List.zipWith sendTimeMsFormula inputs (ttimeCycleTrace (-1) 0 inputs) := by
  refine ⟨?_, ttimeTrace_eq_zipWith inputs (-1) 0⟩
  cases inputs with
  | nil => exact List.chain'_nil
  | cons a rest =>
    have ha : a < 16777216 := hrange a (List.mem_cons_self _ _)
    have hfirst : getTtimeFromAbsSendtime (-1) 0 a = (0, a, sendTimeMsFormula a 0) := by
      have hcond : (a * 256 % 4294967296 + 4294967296 - a * 256 % 4294967296) % 4294967296
          < 2147483648 := by omega
      simp only [getTtimeFromAbsSendtime, if_pos rfl, if_true, if_pos hcond,
        if_neg (lt_irrefl a)]
    rw [ttimeTrace, hfirst]
    exact ttimeTrace_chain_aux rest 0 a le_rfl ha
      (fun b hb => hrange b (List.mem_cons_of_mem a hb))
      (hmono.imp (fun _ _ hxy => hxy.2))

/-- Synthetic monotonically increasing (mod 2^24) stream spanning three wrap
cycles. -/
def c6Stream : List Nat :=
  [0, 6000000, 12000000, 1000000, 7000000, 13000000, 2000000, 8000000, 14000000, 3000000]

/-- Witness for C6 on `c6Stream`. -/
theorem C6_send_time_unwrap_witness :
    (∀ a ∈ c6Stream, a < 16777216) ∧
    List.Chain' (fun x y => 0 < (y + 16777216 - x) % 16777216 ∧
      (y + 16777216 - x) % 16777216 < 8388608) c6Stream ∧
    3 ≤ ttimeFinalCycles (-1) 0 c6Stream ∧
    List.Chain' (· ≤ ·) (ttimeTrace (-1) 0 c6Stream) :=
  ⟨by decide, by simp only [c6Stream, List.chain'_cons, List.chain'_singleton]; norm_num,
    by decide,
    (C6_send_time_unwrap c6Stream (by decide)
      (by simp only [c6Stream, List.chain'_cons, List.chain'_singleton]; norm_num)
      (by decide)).1⟩

/-- C3: with periodic feedback enabled, a cursor at `c`, and a non-empty run of
stored arrivals from the cursor to the end of the window, one periodic drain
(`Process`) emits messages whose appended record slices are exactly the greedy
capacity-`cap` chunks of the run — so their covered ranges are contiguous,
non-overlapping, each message non-empty, and their concatenation is exactly the
run — and the final cursor is one past the run's last sequence number. Each
message's returned next base is one past its last appended record by
construction of `buildFeedbackPacket`. Requires a packet capacity of at least
one record (the `RTC_CHECK` of line 334 makes a zero-capacity packet fatal). -/
theorem C3_periodic_drain (cap : Nat) (st : ProxyState) (now : Int) (c : Int)
    (hcap : 1 ≤ cap)
    (hs : MapSorted st.packet_arrival_times)
    (hper : st.send_periodic_feedback = true)
    (hcur : st.periodic_window_start_seq = some c)
    (_hne : lowerBound st.packet_arrival_times c ≠ []) :
    (process cap st now).2.map (fun r => r.2) =
        chunkList cap (lowerBound st.packet_arrival_times c) ∧
    (chunkList cap (lowerBound st.packet_arrival_times c)).flatten =
        lowerBound st.packet_arrival_times c ∧
    (∀ ch ∈ chunkList cap (lowerBound st.packet_arrival_times c), ch ≠ []) ∧
    ∀ q, (lowerBound st.packet_arrival_times c).getLast? = some q →
      (process cap st now).1.periodic_window_start_seq = some (q.1 + 1) := by
  have hrun := drainLoop_run cap hcap (st.packet_arrival_times.length + 1)
    { st with last_process_time_ms := now } c hcur hs
    (by
      dsimp only
      rw [lowerBound]
      have hlen := List.Sublist.length_le
        (List.dropWhile_sublist _ :
          (st.packet_arrival_times.dropWhile
            (fun p => decide (p.1 < c))).Sublist st.packet_arrival_times)
      omega)
  have hproc : process cap st now =
      drainLoop cap (st.packet_arrival_times.length + 1) { st with last_process_time_ms := now } := by
    rw [process, if_neg (by rw [hper]; simp), sendPeriodicFeedbacks]
    rw [show ({ st with last_process_time_ms := now } : ProxyState).periodic_window_start_seq =
      some c from hcur]
  rw [hproc]
  refine ⟨hrun.1, chunkList_join cap _, chunkList_mem_ne_nil cap _, fun q hq => ?_⟩
  rw [hrun.2, hq]

/-- Witness for C3: the spec's concrete scenario (arrivals 1..5, cursor at 1)
drained with a capacity of 2 records per message: three messages covering
{1,2}, {3,4}, {5}, and the cursor advances to 6. -/
theorem C3_periodic_drain_witness :
    MapSorted ([(1, 100), (2, 101), (3, 105), (4, 106), (5, 110)] : ArrivalMap) ∧
    (process 2 ⟨[(1, 100), (2, 101), (3, 105), (4, 106), (5, 110)], some 1, true, 0, 42,
        50, -1, none, -1, 0, 0, 0⟩ 1000).2.map (fun r => r.2) =
      [[(1, 100), (2, 101)], [(3, 105), (4, 106)], [(5, 110)]] ∧
    (process 2 ⟨[(1, 100), (2, 101), (3, 105), (4, 106), (5, 110)], some 1, true, 0, 42,
        50, -1, none, -1, 0, 0, 0⟩ 1000).1.periodic_window_start_seq = some 6 := by
  have h := C3_periodic_drain 2
    ⟨[(1, 100), (2, 101), (3, 105), (4, 106), (5, 110)], some 1, true, 0, 42,
      50, -1, none, -1, 0, 0, 0⟩ 1000 1 (by decide) (by decide) rfl rfl (by decide)
  exact ⟨by decide, h.1.trans (by simp [chunkList, lowerBound]),
    (h.2.2.2 (5, 110) (by decide)).trans (by decide)⟩
